import Mathlib

/-!
Verification development for the task batch-processing pipeline of `Q4.py`.

The pipeline consists of:
* a SQLite-backed task table (`setup_database` / `populate_tasks`),
* worker coroutines `process_task` that sample resource usage and put an
  update record onto a module-level `asyncio.Queue` (`update_queue`),
* a batch accumulator `async_update_batch` that gathers up to 100 records
  (with a 5-unit per-receive timeout) and applies each completed batch to
  the database inside one transaction, and
* `main`, which seeds 1000 pending rows, runs 1000 workers, awaits
  `update_queue.join()` and then cancels the accumulator task.

The development embeds these pieces as executable Lean definitions and
proves or refutes the specified properties about them.
-/

namespace Q4

set_option maxRecDepth 16384

/-- Task status column: seeded as `pending`, set to `completed` by a flush. -/
inductive Status where
  | pending
  | completed
deriving DecidableEq, Repr

/-- One row of the `tasks` table: `status`, `cpu_usage`, `memory_usage`
(the primary key is carried separately as the association key). -/
structure TaskRow where
  status : Status
  cpu_usage : Int
  memory_usage : Int
deriving DecidableEq, Repr

/-- The freshly seeded row: `('pending', 0, 0)`. -/
def pendingRow : TaskRow := ⟨Status.pending, 0, 0⟩

/-- The durable `tasks` table, as an association list from primary key `id`
to the row contents. -/
abbrev Table := List (Nat × TaskRow)

/-- A transient update record `(task_id, cpu_usage, memory_usage)` as put on
`update_queue` by `process_task`. -/
structure UpdateRecord where
  task_id : Nat
  cpu_usage : Int
  memory_usage : Int
deriving DecidableEq, Repr

/-- Row lookup by primary key, mirroring `WHERE id = ?`. -/
def findRow (id : Nat) : Table → Option TaskRow
  | [] => none
  | (i, row) :: t => if i = id then some row else findRow id t

/-- One `UPDATE tasks SET status = completed, cpu_usage = ?, memory_usage = ?
WHERE id = ?` statement: every row whose key matches the record's `task_id`
is overwritten; a record matching no row changes nothing. -/
def applyUpdate (tbl : Table) (r : UpdateRecord) : Table :=
  tbl.map (fun p =>
    if p.1 = r.task_id then (p.1, TaskRow.mk Status.completed r.cpu_usage r.memory_usage)
    else p)

/-- The effect of the per-record loop of a flush: the updates of a batch
applied in order. -/
def applyBatch (tbl : Table) (batch : List UpdateRecord) : Table :=
  batch.foldl applyUpdate tbl

/-- The effect of `populate_tasks`: `n` rows with auto-assigned keys
`1, ..., n`, all `('pending', 0, 0)`. -/
def seedTasks (n : Nat) : Table :=
  (List.range n).map (fun i => (i + 1, pendingRow))

/-! ### The flush transaction (`async_update_batch`, lines 31-39)

The connection state distinguishes the durable table from the working state
of an open transaction.  `BEGIN` snapshots the durable table; each `UPDATE`
rewrites the working state; `commit` publishes it; closing the connection
with an uncommitted transaction rolls it back, leaving the durable table as
it was.  A storage fault may strike before any single update or at the
commit; it propagates as an exception, so the connection is closed without
a commit. -/

/-- SQLite connection state: the durable table plus the working state of an
open transaction, if any. -/
structure Conn where
  durable : Table
  tx : Option Table

/-- `BEGIN`: open a transaction whose working state starts at the durable
table. -/
def beginTx (c : Conn) : Conn := { c with tx := some c.durable }

/-- Execute one `UPDATE` inside the open transaction: only the working
state changes. -/
def execUpdate (c : Conn) (r : UpdateRecord) : Conn :=
  { c with tx := c.tx.map (fun t => applyUpdate t r) }

/-- `commit`: the working state becomes durable. -/
def commitTx (c : Conn) : Conn :=
  match c.tx with
  | some t => ⟨t, none⟩
  | none => c

/-- Closing the connection without a commit discards the open transaction:
only the durable table survives. -/
def closeConn (c : Conn) : Table := c.durable

/-- The body of a flush after `BEGIN`: run the remaining updates, then
commit and report the batch count.  `faultAt` injects a storage fault
before the k-th remaining operation (the operation after the last update
being the commit); the fault aborts the flush, the connection is closed
and the error carries the durable table that results. -/
def flushGo (c : Conn) (rs : List UpdateRecord) (faultAt : Option Nat) (n : Nat) :
    Except Table (Table × Nat) :=
  match rs with
  | [] =>
    if faultAt = some 0 then Except.error (closeConn c)
    else Except.ok ((commitTx c).durable, n)
  | r :: rest =>
    match faultAt with
    | some 0 => Except.error (closeConn c)
    | some (k + 1) => flushGo (execUpdate c r) rest (some k) n
    | none => flushGo (execUpdate c r) rest none n

/-- `TaskStore.flush`: `BEGIN`, one `UPDATE` per record, `commit`, reporting
`len(updates)` on success.  `faultAt = some k` injects a storage fault
before the k-th operation (`k = batch.length` meaning at the commit);
`none` means no fault. -/
def flushBatch (tbl : Table) (batch : List UpdateRecord) (faultAt : Option Nat) :
    Except Table (Table × Nat) :=
  flushGo (beginTx ⟨tbl, none⟩) batch faultAt batch.length

/-! ### The worker (`process_task`, lines 42-56)

The worker sleeps, reads the sampler (psutil), and puts the record on the
queue.  The sampler is abstracted as a fallible function; the source has no
exception handler, so a sampler failure propagates out of the worker and no
record is produced. -/

/-- `process_task`: obtain `(cpu_usage, memory_usage)` from the resource
sampler, then produce the record destined for `update_queue`.  There is no
handler around the measurement: a sampler error propagates. -/
def process_task (sampler : Nat → Except Unit (Int × Int)) (task_id : Nat) :
    Except Unit UpdateRecord :=
  match sampler task_id with
  | Except.ok (c, m) => Except.ok ⟨task_id, c, m⟩
  | Except.error e => Except.error e

/-- A sampler whose measurement facility is unavailable: every call fails. -/
def failingSampler : Nat → Except Unit (Int × Int) := fun _ => Except.error ()

/-! ### The accumulator loop as an event fold (`async_update_batch`, lines 20-39)

Each outcome of `asyncio.wait_for(update_queue.get(), timeout=5)` is one
event: either an item was received or the wait timed out.  The loop state
carries the in-memory batch, the batches committed so far, the durable
table, a fault schedule (one entry per flush attempt, mirroring whether the
storage faults on that transaction), and whether the loop has been killed
by an uncaught exception.  The source has no handler around the flush: a
storage fault propagates out of the `while True` loop, so once `aborted`
is set no further event is processed. -/

/-- The batch-size cutoff of the inner loop: `while len(updates) < 100`. -/
def MAX_BATCH : Nat := 100

/-- The per-receive timeout: `asyncio.wait_for(..., timeout=5)`. -/
def T_idle : Nat := 5

/-- One outcome of a receive attempt on `update_queue`. -/
inductive GetResult where
  | item (r : UpdateRecord)
  | timeout
deriving DecidableEq, Repr

/-- State of the accumulator loop. -/
structure LoopSt where
  committed : List (List UpdateRecord)
  batch : List UpdateRecord
  faults : List Bool
  table : Table
  aborted : Bool
deriving DecidableEq

/-- One flush attempt on a completed batch: with no fault scheduled, the
transaction commits (the batch is appended to the committed list and its
updates are applied to the durable table); with a fault scheduled, the
exception propagates — nothing is committed and the loop is dead. -/
def flushAttempt (s : LoopSt) (b : List UpdateRecord) : LoopSt :=
  match s.faults with
  | true :: fs => { s with faults := fs, aborted := true }
  | false :: fs =>
    { s with faults := fs, committed := s.committed ++ [b], table := applyBatch s.table b }
  | [] => { s with committed := s.committed ++ [b], table := applyBatch s.table b }

/-- One event of the accumulator loop: a received item is appended to the
batch, flushing when the batch reaches `MAX_BATCH`; a timeout flushes a
non-empty batch and is a no-op on an empty one (`if updates:`).  A dead
loop ignores everything. -/
def loopStep (s : LoopSt) (e : GetResult) : LoopSt :=
  if s.aborted then s
  else
    match e with
    | GetResult.item r =>
      let b := s.batch ++ [r]
      if b.length = MAX_BATCH then flushAttempt { s with batch := [] } b
      else { s with batch := b }
    | GetResult.timeout =>
      if s.batch.isEmpty then s else flushAttempt { s with batch := [] } s.batch

/-- The accumulator loop run over a finite event prefix, starting from a
durable table and a fault schedule. -/
def runLoop (tbl : Table) (faults : List Bool) (evs : List GetResult) : LoopSt :=
  evs.foldl loopStep ⟨[], [], faults, tbl, false⟩

/-! ### The accumulator loop in real time (`async_update_batch`, lines 20-31)

For the timing properties the loop is driven by a timed arrival trace:
a list of `(arrival time, record)` pairs.  At current time `t`, a receive
attempt consumes the next arrival if it comes within `t + T_idle` (at time
`max t t'`, since an already-queued record is received immediately);
otherwise the attempt times out at `t + T_idle`, flushing a non-empty
batch and merely restarting the wait on an empty one.  When the trace is
exhausted, one final timeout fires (the stall after the last producer),
flushing any remaining non-empty batch.  The result is the list of
flushes, each with the time it was triggered. -/

def sim : Nat → List UpdateRecord → List (Nat × UpdateRecord) →
    List (Nat × List UpdateRecord)
  | t, batch, [] => if batch.isEmpty then [] else [(t + T_idle, batch)]
  | t, batch, (t1, r) :: rest =>
    if t1 ≤ t + T_idle then
      let b := batch ++ [r]
      if b.length = MAX_BATCH then (max t t1, b) :: sim (max t t1) [] rest
      else sim (max t t1) b rest
    else
      if batch.isEmpty then sim (t + T_idle) [] ((t1, r) :: rest)
      else (t + T_idle, batch) :: sim (t + T_idle) [] ((t1, r) :: rest)
termination_by t _ arr => (arr.length, (arr.head?.elim 0 (fun a => a.1 - t)))
decreasing_by
  all_goals simp_wf
  · omega
  · omega
  · apply Prod.Lex.right
    simp [T_idle] at *
    omega
  · apply Prod.Lex.right
    simp [T_idle] at *
    omega

/-! ### The whole pipeline (`main`, lines 87-102) as a transition system

`main` seeds the table, starts `async_update_batch` as a background task,
runs one `process_task` per seeded id, awaits `update_queue.join()` and
then cancels the accumulator task.  The model interleaves:

* `publish` — a worker puts its record on `update_queue` (the queue is
  constructed with no `maxsize`, so a put always succeeds immediately and
  bumps the join counter);
* `consume` — the accumulator receives the head of the queue and calls
  `task_done()` (the two are adjacent with no `await` between them, hence
  one atomic step); when the batch reaches `MAX_BATCH` the inner loop
  exits and the flush transaction is pending;
* `timeout` — a receive attempt times out while the queue is empty; a
  non-empty batch becomes a pending flush;
* `commit` — the pending flush transaction commits and its updates are
  applied to the durable table;
* `cancel` — `main` has observed all workers finished (`gather`) and the
  join counter at zero, and cancels the accumulator task; the
  `CancelledError` lands at the accumulator's next `await`, so an
  in-memory batch and a pending not-yet-committed flush are discarded
  (recorded in the ghost field `lost`). -/

/-- Transition labels of the pipeline model. -/
inductive Lbl where
  | publish
  | consume
  | timeout
  | commit
  | cancel
deriving DecidableEq, Repr

/-- Global state of the pipeline: the records the workers have not yet
published, the channel buffer, the `join` counter of unfinished queue
items, the accumulator's in-memory batch, a pending flush transaction,
the committed batches, the durable table, whether the accumulator task is
alive, and the ghost list of records discarded by cancellation. -/
structure PState where
  toPublish : List UpdateRecord
  queue : List UpdateRecord
  unfinished : Nat
  batch : List UpdateRecord
  flushing : Option (List UpdateRecord)
  flushed : List (List UpdateRecord)
  table : Table
  accAlive : Bool
  lost : List UpdateRecord
deriving DecidableEq

/-- The state right after `main` seeded the table and spawned the workers
and the accumulator. -/
def initState (recs : List UpdateRecord) (tbl : Table) : PState :=
  ⟨recs, [], 0, [], none, [], tbl, true, []⟩

/-- One step of the pipeline. -/
inductive Step : Lbl → PState → PState → Prop where
  | publish (s : PState) (r : UpdateRecord) (rest : List UpdateRecord) :
      s.toPublish = r :: rest →
      Step Lbl.publish s
        { s with toPublish := rest, queue := s.queue ++ [r],
                 unfinished := s.unfinished + 1 }
  | consume (s : PState) (r : UpdateRecord) (qrest : List UpdateRecord) :
      s.accAlive = true → s.flushing = none → s.queue = r :: qrest →
      s.batch.length + 1 < MAX_BATCH →
      Step Lbl.consume s
        { s with queue := qrest, unfinished := s.unfinished - 1,
                 batch := s.batch ++ [r] }
  | consumeFull (s : PState) (r : UpdateRecord) (qrest : List UpdateRecord) :
      s.accAlive = true → s.flushing = none → s.queue = r :: qrest →
      s.batch.length + 1 = MAX_BATCH →
      Step Lbl.consume s
        { s with queue := qrest, unfinished := s.unfinished - 1,
                 batch := [], flushing := some (s.batch ++ [r]) }
  | timeout (s : PState) :
      s.accAlive = true → s.flushing = none → s.queue = [] → s.batch ≠ [] →
      Step Lbl.timeout s
        { s with batch := [], flushing := some s.batch }
  | commit (s : PState) (b : List UpdateRecord) :
      s.accAlive = true → s.flushing = some b →
      Step Lbl.commit s
        { s with flushing := none, flushed := s.flushed ++ [b],
                 table := applyBatch s.table b }
  | cancel (s : PState) :
      s.accAlive = true → s.toPublish = [] → s.unfinished = 0 →
      Step Lbl.cancel s
        { s with accAlive := false, flushing := none, batch := [],
                 lost := s.lost ++ (s.flushing.getD []) ++ s.batch }

/-- Some step with any label. -/
def StepAny (s s1 : PState) : Prop := ∃ l, Step l s s1

/-- Some step other than a receive timeout (the schedules in which no idle
gap ever occurs between arrivals). -/
def StepNT (s s1 : PState) : Prop := ∃ l, l ≠ Lbl.timeout ∧ Step l s s1

/-- Reachability of the pipeline. -/
def Reach (s s1 : PState) : Prop := Relation.ReflTransGen StepAny s s1

/-- Reachability along schedules with no receive timeouts. -/
def ReachNT (s s1 : PState) : Prop := Relation.ReflTransGen StepNT s s1

/-- All records of the pipeline, in their current positions: committed,
pending flush, in-memory batch, channel buffer, unpublished, and
discarded by cancellation. -/
def recordsOf (s : PState) : List UpdateRecord :=
  s.flushed.flatten ++ (s.flushing.getD []) ++ s.batch ++ s.queue ++
    s.toPublish ++ s.lost

/-- Whether a row's status column is `completed`. -/
def isCompleted : TaskRow → Bool
  | ⟨Status.completed, _, _⟩ => true
  | ⟨Status.pending, _, _⟩ => false

/-- Number of rows whose status column is `completed`. -/
def completedCount (tbl : Table) : Nat :=
  (tbl.filter (fun p => isCompleted p.2)).length

/-- The bounded-channel property claimed of `update_queue`: some fixed
bound that the number of buffered records never exceeds, over every run
of the pipeline. -/
def ChannelBounded : Prop :=
  ∃ B : Nat, ∀ (recs : List UpdateRecord) (tbl : Table) (s : PState),
    Reach (initState recs tbl) s → s.queue.length ≤ B

/-- A well-formed start: the published task ids are distinct, the table
keys are distinct, every seeded row is `('pending', 0, 0)`, and every
published id matches a seeded row. -/
def WFInit (recs : List UpdateRecord) (tbl : Table) : Prop :=
  (recs.map UpdateRecord.task_id).Nodup ∧ (tbl.map Prod.fst).Nodup ∧
    (∀ p ∈ tbl, p.2 = pendingRow) ∧
    (∀ r ∈ recs, r.task_id ∈ tbl.map Prod.fst)

/-- The records of the nominal 1000-task run, one per seeded id, with the
workers' (abstract, non-default) usage samples. -/
def recs1000 : List UpdateRecord :=
  (List.range 1000).map (fun i => ⟨i + 1, 1, 1⟩)

/-- The nominal run of `main`: 1000 seeded rows, 1000 workers. -/
def init1000 : PState := initState recs1000 (seedTasks 1000)

/-- Inductive invariant of the pipeline, relative to the initial records
and table. -/
structure Inv (recs : List UpdateRecord) (tbl0 : Table) (s : PState) : Prop where
  conserve : recordsOf s = recs
  ufq : s.unfinished = s.queue.length
  keys : s.table.map Prod.fst = tbl0.map Prod.fst
  batchLt : s.batch.length < MAX_BATCH
  flushedSz : ∀ b ∈ s.flushed, b.length ≤ MAX_BATCH ∧ b ≠ []
  flushingSz : ∀ b, s.flushing = some b → b.length ≤ MAX_BATCH ∧ b ≠ []
  lostEmpty : s.accAlive = true → s.lost = []
  lostLt : s.lost.length < 2 * MAX_BATCH
  dead : s.accAlive = false →
    s.flushing = none ∧ s.batch = [] ∧ s.toPublish = [] ∧ s.queue = []
  rows : ∀ id row, findRow id s.table = some row →
    (row = pendingRow ∧ ∀ c m, UpdateRecord.mk id c m ∉ s.flushed.flatten) ∨
    (∃ c m, row = TaskRow.mk Status.completed c m ∧
      UpdateRecord.mk id c m ∈ s.flushed.flatten)
  count : completedCount s.table = s.flushed.flatten.length

/-- Additional invariant of timeout-free schedules: every flush is exactly
`MAX_BATCH` records. -/
structure InvNT (s : PState) : Prop where
  flushedSz : ∀ b ∈ s.flushed, b.length = MAX_BATCH
  flushingSz : ∀ b, s.flushing = some b → b.length = MAX_BATCH

/-! ### Helper lemmas about the table operations -/

theorem findRow_eq_some_mem {id : Nat} {row : TaskRow} :
    ∀ {tbl : Table}, findRow id tbl = some row → (id, row) ∈ tbl := by
  intro tbl
  induction tbl with
  | nil => intro h; simp [findRow] at h
  | cons p t ih =>
    intro h
    by_cases hp : p.1 = id
    · rw [show p = (p.1, p.2) from rfl, findRow, if_pos hp] at h
      simp only [Option.some.injEq] at h
      subst h; subst hp
      exact List.mem_cons_self _ _
    · rw [show p = (p.1, p.2) from rfl, findRow, if_neg hp] at h
      exact List.mem_cons_of_mem _ (ih h)

theorem findRow_isSome_of_mem_keys {id : Nat} :
    ∀ {tbl : Table}, id ∈ tbl.map Prod.fst → ∃ row, findRow id tbl = some row := by
  intro tbl
  induction tbl with
  | nil => intro h; simp at h
  | cons p t ih =>
    intro h
    by_cases hp : p.1 = id
    · exact ⟨p.2, by rw [show p = (p.1, p.2) from rfl, findRow, if_pos hp]⟩
    · simp only [List.map_cons, List.mem_cons] at h
      rcases h with h | h
      · exact absurd h.symm hp
      · obtain ⟨row, hr⟩ := ih h
        exact ⟨row, by rw [show p = (p.1, p.2) from rfl, findRow, if_neg hp]; exact hr⟩

theorem applyUpdate_keys (tbl : Table) (r : UpdateRecord) :
    (applyUpdate tbl r).map Prod.fst = tbl.map Prod.fst := by
  induction tbl with
  | nil => rfl
  | cons p t ih =>
    simp only [applyUpdate, List.map_cons] at ih ⊢
    by_cases hp : p.1 = r.task_id
    · rw [if_pos hp]; simpa using ih
    · rw [if_neg hp]; simpa using ih

theorem applyBatch_keys (b : List UpdateRecord) :
    ∀ (tbl : Table), (applyBatch tbl b).map Prod.fst = tbl.map Prod.fst := by
  induction b with
  | nil => intro tbl; rfl
  | cons r rest ih =>
    intro tbl
    show (applyBatch (applyUpdate tbl r) rest).map Prod.fst = _
    rw [ih, applyUpdate_keys]

theorem applyUpdate_not_mem_keys {tbl : Table} {r : UpdateRecord}
    (h : r.task_id ∉ tbl.map Prod.fst) : applyUpdate tbl r = tbl := by
  induction tbl with
  | nil => rfl
  | cons p t ih =>
    simp only [List.map_cons, List.mem_cons, not_or] at h
    simp only [applyUpdate, List.map_cons] at ih ⊢
    rw [if_neg (fun hc => h.1 hc.symm)]
    rw [ih h.2]

theorem findRow_applyUpdate_ne {id : Nat} {r : UpdateRecord} (h : id ≠ r.task_id) :
    ∀ (tbl : Table), findRow id (applyUpdate tbl r) = findRow id tbl := by
  intro tbl
  induction tbl with
  | nil => rfl
  | cons p t ih =>
    obtain ⟨i, row⟩ := p
    simp only [applyUpdate, List.map_cons] at ih ⊢
    by_cases hp : i = r.task_id
    · simp only [if_pos hp]
      rw [findRow, findRow]
      rw [if_neg (fun hc : i = id => h (hc ▸ hp)), if_neg (fun hc : i = id => h (hc ▸ hp))]
      exact ih
    · simp only [if_neg hp]
      rw [findRow, findRow]
      by_cases hq : i = id
      · simp only [if_pos hq]
      · simp only [if_neg hq]; exact ih

theorem findRow_applyUpdate_self (r : UpdateRecord) :
    ∀ (tbl : Table), findRow r.task_id (applyUpdate tbl r) =
      (findRow r.task_id tbl).map
        (fun _ => TaskRow.mk Status.completed r.cpu_usage r.memory_usage) := by
  intro tbl
  induction tbl with
  | nil => rfl
  | cons p t ih =>
    obtain ⟨i, row⟩ := p
    simp only [applyUpdate, List.map_cons] at ih ⊢
    by_cases hp : i = r.task_id
    · simp only [if_pos hp]
      rw [findRow, findRow]
      simp only [if_pos hp]
      rfl
    · simp only [if_neg hp]
      rw [findRow, findRow]
      simp only [if_neg hp]
      exact ih

theorem findRow_applyBatch_not_mem {id : Nat} :
    ∀ {b : List UpdateRecord} (tbl : Table), id ∉ b.map UpdateRecord.task_id →
      findRow id (applyBatch tbl b) = findRow id tbl := by
  intro b
  induction b with
  | nil => intro tbl _; rfl
  | cons r rest ih =>
    intro tbl h
    simp only [List.map_cons, List.mem_cons, not_or] at h
    show findRow id (applyBatch (applyUpdate tbl r) rest) = _
    rw [ih _ h.2, findRow_applyUpdate_ne h.1]

theorem findRow_applyBatch_mem {r : UpdateRecord} :
    ∀ {b : List UpdateRecord} (tbl : Table), (b.map UpdateRecord.task_id).Nodup →
      r ∈ b →
      findRow r.task_id (applyBatch tbl b) =
        (findRow r.task_id tbl).map
          (fun _ => TaskRow.mk Status.completed r.cpu_usage r.memory_usage) := by
  intro b
  induction b with
  | nil => intro tbl _ hm; simp at hm
  | cons x rest ih =>
    intro tbl hnd hm
    simp only [List.map_cons, List.nodup_cons] at hnd
    rcases List.mem_cons.1 hm with hx | hx
    · subst hx
      show findRow r.task_id (applyBatch (applyUpdate tbl r) rest) = _
      rw [findRow_applyBatch_not_mem _ hnd.1, findRow_applyUpdate_self]
    · have hne : r.task_id ≠ x.task_id := by
        intro hc
        exact hnd.1 (hc ▸ List.mem_map_of_mem UpdateRecord.task_id hx)
      show findRow r.task_id (applyBatch (applyUpdate tbl x) rest) = _
      rw [ih _ hnd.2 hx, findRow_applyUpdate_ne hne]

theorem completedCount_applyUpdate_pending {id : Nat} (c m : Int) :
    ∀ {tbl : Table}, (tbl.map Prod.fst).Nodup → findRow id tbl = some pendingRow →
      completedCount (applyUpdate tbl (UpdateRecord.mk id c m)) =
        completedCount tbl + 1 := by
  intro tbl
  induction tbl with
  | nil => intro _ h; simp [findRow] at h
  | cons p t ih =>
    intro hnd h
    obtain ⟨i, row⟩ := p
    simp only [List.map_cons, List.nodup_cons] at hnd
    by_cases hp : i = id
    · rw [findRow, if_pos hp] at h
      simp only [Option.some.injEq] at h
      have ht : applyUpdate t (UpdateRecord.mk id c m) = t :=
        applyUpdate_not_mem_keys (by simpa [← hp] using hnd.1)
      simp only [applyUpdate, List.map_cons, if_pos hp]
      show completedCount ((i, TaskRow.mk Status.completed c m) ::
        applyUpdate t (UpdateRecord.mk id c m)) = _
      rw [ht]
      subst h
      simp [completedCount, List.filter_cons, isCompleted, pendingRow, Nat.add_comm]
    · rw [findRow, if_neg hp] at h
      simp only [applyUpdate, List.map_cons, if_neg hp]
      show completedCount ((i, row) :: applyUpdate t (UpdateRecord.mk id c m)) = _
      have hrec := ih hnd.2 h
      simp only [completedCount, List.filter_cons] at hrec ⊢
      cases hd : isCompleted row <;> simp [hd, hrec]

theorem completedCount_applyBatch :
    ∀ {b : List UpdateRecord} (tbl : Table), (tbl.map Prod.fst).Nodup →
      (b.map UpdateRecord.task_id).Nodup →
      (∀ r ∈ b, findRow r.task_id tbl = some pendingRow) →
      completedCount (applyBatch tbl b) = completedCount tbl + b.length := by
  intro b
  induction b with
  | nil => intro tbl _ _ _; rfl
  | cons r rest ih =>
    intro tbl hk hnd hpend
    simp only [List.map_cons, List.nodup_cons] at hnd
    show completedCount (applyBatch (applyUpdate tbl r) rest) = _
    have hk1 : ((applyUpdate tbl r).map Prod.fst).Nodup := by
      rw [applyUpdate_keys]; exact hk
    have hpend1 : ∀ x ∈ rest, findRow x.task_id (applyUpdate tbl r) = some pendingRow := by
      intro x hx
      have hne : x.task_id ≠ r.task_id := by
        intro hc
        exact hnd.1 (hc ▸ List.mem_map_of_mem UpdateRecord.task_id hx)
      rw [findRow_applyUpdate_ne hne]
      exact hpend x (List.mem_cons_of_mem _ hx)
    rw [ih _ hk1 hnd.2 hpend1]
    have : completedCount (applyUpdate tbl r) = completedCount tbl + 1 := by
      have h0 := @completedCount_applyUpdate_pending r.task_id
        r.cpu_usage r.memory_usage tbl hk (hpend r (List.mem_cons_self _ _))
      simpa using h0
    rw [this]
    simp [List.length_cons]
    omega

theorem flatten_length_of_sizes {fl : List (List UpdateRecord)} {k : Nat}
    (h : ∀ b ∈ fl, b.length = k) : fl.flatten.length = k * fl.length := by
  induction fl with
  | nil => simp
  | cons b rest ih =>
    simp only [List.flatten_cons, List.length_append, List.length_cons]
    rw [h b (List.mem_cons_self _ _), ih (fun x hx => h x (List.mem_cons_of_mem _ hx))]
    ring

/-! ### Helper lemmas about the flush transaction -/

theorem flushGo_fault : ∀ (rs : List UpdateRecord) (c : Conn) (k n : Nat),
    k ≤ rs.length → flushGo c rs (some k) n = Except.error c.durable := by
  intro rs
  induction rs with
  | nil =>
    intro c k n hk
    have : k = 0 := Nat.le_zero.1 hk
    subst this
    simp [flushGo, closeConn]
  | cons r rest ih =>
    intro c k n hk
    match k with
    | 0 => simp [flushGo, closeConn]
    | k + 1 =>
      show flushGo (execUpdate c r) rest (some k) n = _
      rw [ih (execUpdate c r) k n (Nat.le_of_succ_le_succ hk)]
      rfl

theorem flushGo_ok : ∀ (rs : List UpdateRecord) (tbl acc : Table) (n : Nat),
    flushGo (Conn.mk tbl (some acc)) rs none n =
      Except.ok (applyBatch acc rs, n) := by
  intro rs
  induction rs with
  | nil => intro tbl acc n; simp [flushGo, commitTx, applyBatch]
  | cons r rest ih =>
    intro tbl acc n
    show flushGo (execUpdate (Conn.mk tbl (some acc)) r) rest none n = _
    show flushGo (Conn.mk tbl (some (applyUpdate acc r))) rest none n = _
    rw [ih]
    rfl

/-! ### Helper lemmas about the accumulator loop fold -/

theorem loop_frozen : ∀ (evs : List GetResult) (s : LoopSt),
    s.aborted = true → evs.foldl loopStep s = s := by
  intro evs
  induction evs with
  | nil => intro s _; rfl
  | cons e rest ih =>
    intro s h
    show rest.foldl loopStep (loopStep s e) = s
    rw [show loopStep s e = s by simp [loopStep, h]]
    exact ih s h

theorem loop_first_fault : ∀ (evs : List GetResult) (s : LoopSt) (fs : List Bool),
    s.aborted = false → s.faults = true :: fs →
    (evs.foldl loopStep s).aborted = true →
    (evs.foldl loopStep s).committed = s.committed ∧
      (evs.foldl loopStep s).table = s.table := by
  intro evs
  induction evs with
  | nil =>
    intro s fs h hf hab
    simp only [List.foldl_nil] at hab
    rw [h] at hab
    cases hab
  | cons e rest ih =>
    intro s fs h hf hab
    simp only [List.foldl_cons] at hab ⊢
    cases e with
    | item r =>
      by_cases hfull : s.batch.length + 1 = MAX_BATCH
      · have hstep : loopStep s (GetResult.item r) =
            { s with batch := [], faults := fs, aborted := true } := by
          simp [loopStep, h, hfull, flushAttempt, hf]
        rw [hstep] at hab ⊢
        rw [loop_frozen rest _ rfl]
        exact ⟨rfl, rfl⟩
      · have hstep : loopStep s (GetResult.item r) = { s with batch := s.batch ++ [r] } := by
          simp [loopStep, h, hfull]
        rw [hstep] at hab ⊢
        exact ih _ fs h hf hab
    | timeout =>
      by_cases hemp : s.batch.isEmpty
      · have hstep : loopStep s GetResult.timeout = s := by
          simp [loopStep, h, hemp]
        rw [hstep] at hab ⊢
        exact ih _ fs h hf hab
      · have hstep : loopStep s GetResult.timeout =
            { s with batch := [], faults := fs, aborted := true } := by
          simp [loopStep, h, hemp, flushAttempt, hf]
        rw [hstep] at hab ⊢
        rw [loop_frozen rest _ rfl]
        exact ⟨rfl, rfl⟩

/-! ### Helper lemmas about the timed accumulator -/

theorem le_foldl_max : ∀ (l : List Nat) (s : Nat), s ≤ l.foldl max s := by
  intro l
  induction l with
  | nil => intro s; exact Nat.le_refl s
  | cons x xs ih => intro s; exact Nat.le_trans (Nat.le_max_left s x) (ih (max s x))

theorem sim_batches : ∀ (t : Nat) (batch : List UpdateRecord)
    (arr : List (Nat × UpdateRecord)), batch.length < MAX_BATCH →
    ∀ f ∈ sim t batch arr, f.2.length ≤ MAX_BATCH ∧ f.2 ≠ [] := by
  intro t batch arr
  induction t, batch, arr using sim.induct with
  | case1 t batch hemp =>
    intro _ f hf
    rw [sim.eq_1] at hf
    simp [hemp] at hf
  | case2 t batch hemp =>
    intro hlt f hf
    rw [sim.eq_1, if_neg hemp] at hf
    simp only [List.mem_singleton] at hf
    subst hf
    exact ⟨Nat.le_of_lt hlt, by simpa using hemp⟩
  | case3 t batch t1 r rest hle b hfull ih =>
    intro hlt f hf
    have hfull2 : (batch ++ [r]).length = MAX_BATCH := hfull
    rw [sim.eq_2] at hf
    simp only [if_pos hle, if_pos hfull2] at hf
    rcases List.mem_cons.1 hf with hf | hf
    · subst hf
      refine ⟨Nat.le_of_eq hfull2, ?_⟩
      simp
    · exact ih (by simp [MAX_BATCH]) f hf
  | case4 t batch t1 r rest hle b hfull ih =>
    intro hlt f hf
    have hfull2 : ¬(batch ++ [r]).length = MAX_BATCH := hfull
    rw [sim.eq_2] at hf
    simp only [if_pos hle, if_neg hfull2] at hf
    have hlen : (batch ++ [r]).length < MAX_BATCH := by
      simp only [List.length_append, List.length_singleton] at hfull2 ⊢
      omega
    exact ih hlen f hf
  | case5 t batch t1 r rest hgt hemp ih =>
    intro hlt f hf
    rw [sim.eq_2] at hf
    simp only [if_neg hgt, if_pos hemp] at hf
    exact ih (by simp [MAX_BATCH]) f hf
  | case6 t batch t1 r rest hgt hemp ih =>
    intro hlt f hf
    rw [sim.eq_2] at hf
    simp only [if_neg hgt, if_neg hemp] at hf
    rcases List.mem_cons.1 hf with hf | hf
    · subst hf
      exact ⟨Nat.le_of_lt hlt, by simpa using hemp⟩
    · exact ih (by simp [MAX_BATCH]) f hf

theorem sim_flatten : ∀ (t : Nat) (batch : List UpdateRecord)
    (arr : List (Nat × UpdateRecord)),
    ((sim t batch arr).map Prod.snd).flatten = batch ++ arr.map Prod.snd := by
  intro t batch arr
  induction t, batch, arr using sim.induct with
  | case1 t batch hemp =>
    simp only [List.isEmpty_iff] at hemp
    rw [sim.eq_1]
    simp [hemp]
  | case2 t batch hemp =>
    rw [sim.eq_1, if_neg hemp]
    simp
  | case3 t batch t1 r rest hle b hfull ih =>
    have hfull2 : (batch ++ [r]).length = MAX_BATCH := hfull
    rw [sim.eq_2]
    simp only [if_pos hle, if_pos hfull2]
    simp only [List.map_cons, List.flatten_cons, ih]
    simp
  | case4 t batch t1 r rest hle b hfull ih =>
    have hfull2 : ¬(batch ++ [r]).length = MAX_BATCH := hfull
    rw [sim.eq_2]
    simp only [if_pos hle, if_neg hfull2]
    rw [ih]
    show (batch ++ [r]) ++ List.map Prod.snd rest = _
    simp
  | case5 t batch t1 r rest hgt hemp ih =>
    simp only [List.isEmpty_iff] at hemp
    rw [sim.eq_2]
    simp only [if_neg hgt, if_pos (by simp [hemp] : batch.isEmpty = true)]
    rw [ih, hemp]
  | case6 t batch t1 r rest hgt hemp ih =>
    rw [sim.eq_2]
    simp only [if_neg hgt, if_neg hemp]
    simp only [List.map_cons, List.flatten_cons, ih]
    simp

theorem sim_times : ∀ (t : Nat) (batch : List UpdateRecord)
    (arr : List (Nat × UpdateRecord)),
    (arr.map Prod.fst).Pairwise (fun a b => a ≤ b) → (∀ a ∈ arr, t ≤ a.1) →
    ∀ f ∈ sim t batch arr, f.1 ≤ (arr.map Prod.fst).foldl max t + T_idle := by
  intro t batch arr
  induction t, batch, arr using sim.induct with
  | case1 t batch hemp =>
    intro _ _ f hf
    rw [sim.eq_1] at hf
    simp [hemp] at hf
  | case2 t batch hemp =>
    intro _ _ f hf
    rw [sim.eq_1, if_neg hemp] at hf
    simp only [List.mem_singleton] at hf
    subst hf
    simp
  | case3 t batch t1 r rest hle b hfull ih =>
    intro hpw hlo f hf
    have hfull2 : (batch ++ [r]).length = MAX_BATCH := hfull
    have ht1 : t ≤ t1 := hlo (t1, r) (List.mem_cons_self _ _)
    have hmax : max t t1 = t1 := Nat.max_eq_right ht1
    rw [sim.eq_2] at hf
    simp only [if_pos hle, if_pos hfull2] at hf
    simp only [List.map_cons, List.pairwise_cons] at hpw
    simp only [List.map_cons, List.foldl_cons, hmax]
    rcases List.mem_cons.1 hf with hf | hf
    · subst hf
      simp only [hmax]
      have := le_foldl_max (rest.map Prod.fst) t1
      omega
    · have hres := ih hpw.2 (fun a ha => by
        have := hpw.1 a.1 (List.mem_map_of_mem Prod.fst ha)
        omega) f hf
      rw [hmax] at hres
      exact hres
  | case4 t batch t1 r rest hle b hfull ih =>
    intro hpw hlo f hf
    have hfull2 : ¬(batch ++ [r]).length = MAX_BATCH := hfull
    have ht1 : t ≤ t1 := hlo (t1, r) (List.mem_cons_self _ _)
    have hmax : max t t1 = t1 := Nat.max_eq_right ht1
    rw [sim.eq_2] at hf
    simp only [if_pos hle, if_neg hfull2] at hf
    simp only [List.map_cons, List.pairwise_cons] at hpw
    simp only [List.map_cons, List.foldl_cons]
    have hres := ih hpw.2 (fun a ha => by
      have := hpw.1 a.1 (List.mem_map_of_mem Prod.fst ha)
      omega) f hf
    rw [hmax] at hres
    rw [Nat.max_eq_right ht1]
    exact hres
  | case5 t batch t1 r rest hgt hemp ih =>
    intro hpw hlo f hf
    rw [sim.eq_2] at hf
    simp only [if_neg hgt, if_pos hemp] at hf
    have hgt5 : t + T_idle < t1 := Nat.lt_of_not_le hgt
    simp only [List.map_cons, List.pairwise_cons] at hpw
    have hres := ih (by simp only [List.map_cons, List.pairwise_cons]; exact hpw)
      (fun a ha => by
        rcases List.mem_cons.1 ha with ha | ha
        · subst ha; omega
        · have := hpw.1 a.1 (List.mem_map_of_mem Prod.fst ha)
          omega) f hf
    simp only [List.map_cons, List.foldl_cons] at hres ⊢
    have h1 : max (t + T_idle) t1 = t1 := Nat.max_eq_right (Nat.le_of_lt hgt5)
    have h2 : max t t1 = t1 := Nat.max_eq_right (by omega)
    rw [h1] at hres
    rw [h2]
    exact hres
  | case6 t batch t1 r rest hgt hemp ih =>
    intro hpw hlo f hf
    rw [sim.eq_2] at hf
    simp only [if_neg hgt, if_neg hemp] at hf
    have hgt5 : t + T_idle < t1 := Nat.lt_of_not_le hgt
    simp only [List.map_cons, List.pairwise_cons] at hpw
    rcases List.mem_cons.1 hf with hf | hf
    · subst hf
      simp only [List.map_cons, List.foldl_cons]
      have h2 : max t t1 = t1 := Nat.max_eq_right (by omega)
      rw [h2]
      have := le_foldl_max (rest.map Prod.fst) t1
      omega
    · have hres := ih (by simp only [List.map_cons, List.pairwise_cons]; exact hpw)
        (fun a ha => by
          rcases List.mem_cons.1 ha with ha | ha
          · subst ha; omega
          · have := hpw.1 a.1 (List.mem_map_of_mem Prod.fst ha)
            omega) f hf
      simp only [List.map_cons, List.foldl_cons] at hres ⊢
      have h1 : max (t + T_idle) t1 = t1 := Nat.max_eq_right (Nat.le_of_lt hgt5)
      have h2 : max t t1 = t1 := Nat.max_eq_right (by omega)
      rw [h1] at hres
      rw [h2]
      exact hres

/-! ### Trace construction lemmas for the pipeline model -/

theorem stepNT_stepAny {s s1 : PState} (h : StepNT s s1) : StepAny s s1 := by
  obtain ⟨l, _, hs⟩ := h
  exact ⟨l, hs⟩

theorem reachNT_reach {s s1 : PState} (h : ReachNT s s1) : Reach s s1 :=
  Relation.ReflTransGen.mono (fun _ _ => stepNT_stepAny) h

theorem reach_publishAll : ∀ (l : List UpdateRecord) (s : PState), s.toPublish = l →
    ReachNT s { s with
      toPublish := [], queue := s.queue ++ l,
      unfinished := s.unfinished + l.length } := by
  intro l
  induction l with
  | nil =>
    intro s h
    have heq : ({ s with
        toPublish := ([] : List UpdateRecord), queue := s.queue ++ [],
        unfinished := s.unfinished + List.length ([] : List UpdateRecord) } :
        PState) = s := by
      simp only [List.append_nil, List.length_nil, Nat.add_zero]
      rw [← h]
    rw [heq]
    exact Relation.ReflTransGen.refl
  | cons r rest ih =>
    intro s h
    have hstep : StepNT s { s with
        toPublish := rest, queue := s.queue ++ [r],
        unfinished := s.unfinished + 1 } :=
      ⟨Lbl.publish, by simp, Step.publish s r rest h⟩
    have htail := ih { s with
      toPublish := rest, queue := s.queue ++ [r],
      unfinished := s.unfinished + 1 } rfl
    have heq : ({ s with
        toPublish := ([] : List UpdateRecord),
        queue := (s.queue ++ [r]) ++ rest,
        unfinished := s.unfinished + 1 + rest.length } : PState) =
        { s with
          toPublish := [], queue := s.queue ++ (r :: rest),
          unfinished := s.unfinished + (r :: rest).length } := by
      simp only [PState.mk.injEq, List.append_assoc, List.singleton_append,
        List.length_cons, and_true, true_and]
      omega
    exact Relation.ReflTransGen.head hstep (heq ▸ htail)

theorem reach_consumeSome : ∀ (c : List UpdateRecord) (s : PState)
    (q1 : List UpdateRecord), s.accAlive = true → s.flushing = none →
    s.queue = c ++ q1 → s.batch.length + c.length < MAX_BATCH →
    ReachNT s { s with
      queue := q1, unfinished := s.unfinished - c.length,
      batch := s.batch ++ c } := by
  intro c
  induction c with
  | nil =>
    intro s q1 _ _ hq _
    have heq : ({ s with
        queue := q1, unfinished := s.unfinished - List.length ([] : List UpdateRecord),
        batch := s.batch ++ [] } : PState) = s := by
      simp only [List.length_nil, Nat.sub_zero, List.append_nil]
      rw [show q1 = s.queue by rw [hq]; rfl]
    rw [heq]
    exact Relation.ReflTransGen.refl
  | cons x c1 ih =>
    intro s q1 halive hflush hq hlen
    simp only [List.length_cons] at hlen
    have hstep : StepNT s { s with
        queue := c1 ++ q1, unfinished := s.unfinished - 1,
        batch := s.batch ++ [x] } :=
      ⟨Lbl.consume, by simp,
        Step.consume s x (c1 ++ q1) halive hflush (by rw [hq]; rfl) (by omega)⟩
    have htail := ih { s with
      queue := c1 ++ q1, unfinished := s.unfinished - 1,
      batch := s.batch ++ [x] } q1 halive hflush rfl
      (by simp only [List.length_append, List.length_singleton]; omega)
    have heq : ({ s with
        queue := q1, unfinished := s.unfinished - 1 - c1.length,
        batch := (s.batch ++ [x]) ++ c1 } : PState) =
        { s with
          queue := q1, unfinished := s.unfinished - (x :: c1).length,
          batch := s.batch ++ (x :: c1) } := by
      simp only [PState.mk.injEq, List.append_assoc, List.singleton_append,
        List.length_cons, and_true, true_and]
      omega
    exact Relation.ReflTransGen.head hstep (heq ▸ htail)

theorem reach_consumeChunk : ∀ (c : List UpdateRecord) (s : PState)
    (q1 : List UpdateRecord), s.accAlive = true → s.flushing = none →
    s.queue = c ++ q1 → c ≠ [] → s.batch.length + c.length = MAX_BATCH →
    ReachNT s { s with
      queue := q1, unfinished := s.unfinished - c.length,
      batch := [], flushing := some (s.batch ++ c) } := by
  intro c
  induction c with
  | nil => intro s q1 _ _ _ hne _; exact absurd rfl hne
  | cons x c1 ih =>
    intro s q1 halive hflush hq _ hlen
    simp only [List.length_cons] at hlen
    cases c1 with
    | nil =>
      have hstep : StepNT s { s with
          queue := q1, unfinished := s.unfinished - 1,
          batch := [], flushing := some (s.batch ++ [x]) } :=
        ⟨Lbl.consume, by simp,
          Step.consumeFull s x q1 halive hflush (by rw [hq]; rfl)
            (by simp only [List.length_nil] at hlen; omega)⟩
      exact Relation.ReflTransGen.single hstep
    | cons y c2 =>
      have hstep : StepNT s { s with
          queue := (y :: c2) ++ q1, unfinished := s.unfinished - 1,
          batch := s.batch ++ [x] } :=
        ⟨Lbl.consume, by simp,
          Step.consume s x ((y :: c2) ++ q1) halive hflush (by rw [hq]; rfl)
            (by simp only [List.length_cons] at hlen; omega)⟩
      have htail := ih { s with
        queue := (y :: c2) ++ q1,
        unfinished := s.unfinished - 1, batch := s.batch ++ [x] } q1 halive hflush
        rfl (by simp)
        (by simp only [List.length_append, List.length_singleton,
          List.length_cons, List.length_nil] at hlen ⊢; omega)
      have heq : ({ s with
          queue := q1,
          unfinished := s.unfinished - 1 - (y :: c2).length, batch := [],
          flushing := some ((s.batch ++ [x]) ++ (y :: c2)) } : PState) =
          { s with
            queue := q1, unfinished := s.unfinished - (x :: y :: c2).length,
            batch := [], flushing := some (s.batch ++ (x :: y :: c2)) } := by
        simp only [PState.mk.injEq, List.append_assoc, List.singleton_append,
          List.length_cons, and_true, true_and]
        omega
      exact Relation.ReflTransGen.head hstep (heq ▸ htail)

theorem reach_flushChunk : ∀ (b : List UpdateRecord) (s : PState)
    (q1 : List UpdateRecord), s.accAlive = true → s.flushing = none →
    s.batch = [] → s.queue = b ++ q1 → b.length = MAX_BATCH →
    ReachNT s { s with
      queue := q1, unfinished := s.unfinished - b.length,
      flushed := s.flushed ++ [b], table := applyBatch s.table b } := by
  intro b s q1 halive hflush hbatch hq hlen
  have hne : b ≠ [] := by
    intro hc
    rw [hc] at hlen
    simp [MAX_BATCH] at hlen
  have h1 := reach_consumeChunk b s q1 halive hflush hq hne
    (by rw [hbatch]; simpa using hlen)
  have hmid : StepNT
      { s with
        queue := q1, unfinished := s.unfinished - b.length, batch := [],
        flushing := some (s.batch ++ b) }
      { s with
        queue := q1, unfinished := s.unfinished - b.length, batch := [],
        flushing := none, flushed := s.flushed ++ [s.batch ++ b],
        table := applyBatch s.table (s.batch ++ b) } :=
    ⟨Lbl.commit, by simp,
      Step.commit _ (s.batch ++ b) halive rfl⟩
  have heq : ({ s with
      queue := q1, unfinished := s.unfinished - b.length,
      batch := [], flushing := none, flushed := s.flushed ++ [s.batch ++ b],
      table := applyBatch s.table (s.batch ++ b) } : PState) =
      { s with
        queue := q1, unfinished := s.unfinished - b.length, batch := [],
        flushing := none, flushed := s.flushed ++ [b],
        table := applyBatch s.table b } := by
    rw [hbatch]
    simp
  have h2 : ReachNT s { s with
      queue := q1, unfinished := s.unfinished - b.length,
      batch := [], flushing := none, flushed := s.flushed ++ [b],
      table := applyBatch s.table b } :=
    Relation.ReflTransGen.trans h1 (Relation.ReflTransGen.single (heq ▸ hmid))
  have heq2 : ({ s with
      queue := q1, unfinished := s.unfinished - b.length,
      batch := [], flushing := none, flushed := s.flushed ++ [b],
      table := applyBatch s.table b } : PState) =
      { s with
        queue := q1, unfinished := s.unfinished - b.length,
        flushed := s.flushed ++ [b], table := applyBatch s.table b } := by
    rw [← hbatch]
    rw [show s.flushing = none from hflush]
  exact heq2 ▸ h2

theorem applyBatch_append (tbl : Table) (l1 l2 : List UpdateRecord) :
    applyBatch tbl (l1 ++ l2) = applyBatch (applyBatch tbl l1) l2 := by
  simp [applyBatch, List.foldl_append]

theorem reach_flushRounds : ∀ (n : Nat) (pre : List UpdateRecord) (s : PState)
    (q1 : List UpdateRecord), s.accAlive = true → s.flushing = none →
    s.batch = [] → s.queue = pre ++ q1 → pre.length = MAX_BATCH * n →
    ∃ fl : List (List UpdateRecord), fl.length = n ∧ fl.flatten = pre ∧
      ReachNT s { s with
        queue := q1, unfinished := s.unfinished - pre.length,
        flushed := s.flushed ++ fl, table := applyBatch s.table pre } := by
  intro n
  induction n with
  | zero =>
    intro pre s q1 _ _ _ hq hlen
    have hpre : pre = [] := List.length_eq_zero.1 (by simpa using hlen)
    subst hpre
    refine ⟨[], rfl, rfl, ?_⟩
    have heq : ({ s with
        queue := q1, unfinished := s.unfinished - List.length ([] : List UpdateRecord),
        flushed := s.flushed ++ [], table := applyBatch s.table [] } : PState) = s := by
      simp only [List.length_nil, Nat.sub_zero, List.append_nil]
      rw [show q1 = s.queue by rw [hq]; rfl]
      rfl
    rw [heq]
    exact Relation.ReflTransGen.refl
  | succ n ih =>
    intro pre s q1 halive hflush hbatch hq hlen
    have hle : MAX_BATCH ≤ pre.length := by
      rw [hlen]
      calc MAX_BATCH = MAX_BATCH * 1 := by ring
      _ ≤ MAX_BATCH * (n + 1) := Nat.mul_le_mul_left _ (by omega)
    have htk : (pre.take MAX_BATCH).length = MAX_BATCH := by
      rw [List.length_take]
      omega
    have hdp : (pre.drop MAX_BATCH).length = MAX_BATCH * n := by
      rw [List.length_drop, hlen]
      ring_nf
      omega
    have hsplit : pre = pre.take MAX_BATCH ++ pre.drop MAX_BATCH :=
      (List.take_append_drop MAX_BATCH pre).symm
    have h1 := reach_flushChunk (pre.take MAX_BATCH) s (pre.drop MAX_BATCH ++ q1)
      halive hflush hbatch
      (by rw [hq]; nth_rewrite 1 [hsplit]; rw [List.append_assoc]) htk
    obtain ⟨fl1, hfl1len, hfl1flat, h2⟩ := ih (pre.drop MAX_BATCH)
      { s with
        queue := pre.drop MAX_BATCH ++ q1,
        unfinished := s.unfinished - (pre.take MAX_BATCH).length,
        flushed := s.flushed ++ [pre.take MAX_BATCH],
        table := applyBatch s.table (pre.take MAX_BATCH) } q1
      halive hflush hbatch rfl hdp
    refine ⟨pre.take MAX_BATCH :: fl1, by simp [hfl1len], ?_, ?_⟩
    · simp only [List.flatten_cons, hfl1flat]
      exact hsplit.symm
    · have h3 := Relation.ReflTransGen.trans h1 h2
      have heq : ({ s with
          queue := q1,
          unfinished := s.unfinished - (pre.take MAX_BATCH).length -
            (pre.drop MAX_BATCH).length,
          flushed := (s.flushed ++ [pre.take MAX_BATCH]) ++ fl1,
          table := applyBatch (applyBatch s.table (pre.take MAX_BATCH))
            (pre.drop MAX_BATCH) } : PState) =
          { s with
            queue := q1, unfinished := s.unfinished - pre.length,
            flushed := s.flushed ++ (pre.take MAX_BATCH :: fl1),
            table := applyBatch s.table pre } := by
        have hlensum : (pre.take MAX_BATCH).length + (pre.drop MAX_BATCH).length =
            pre.length := by
          rw [htk, List.length_drop]
          omega
        simp only [PState.mk.injEq, and_true, true_and]
        refine ⟨by omega, ?_, ?_⟩
        · simp
        · rw [← applyBatch_append]
          rw [← hsplit]
      exact heq ▸ h3


/-! ### The inductive invariant -/

theorem completedCount_eq_zero : ∀ {tbl : Table},
    (∀ p ∈ tbl, p.2 = pendingRow) → completedCount tbl = 0 := by
  intro tbl
  induction tbl with
  | nil => intro _; rfl
  | cons p t ih =>
    intro h
    have hp := h p (List.mem_cons_self _ _)
    have hic : isCompleted p.2 = false := by
      rw [hp]
      rfl
    simp [completedCount, List.filter_cons, hic]
    intro a b hab
    have hb : b = pendingRow := h (a, b) (List.mem_cons_of_mem _ hab)
    rw [hb]
    rfl

theorem inv_init {recs : List UpdateRecord} {tbl0 : Table} (hwf : WFInit recs tbl0) :
    Inv recs tbl0 (initState recs tbl0) := by
  obtain ⟨hw1, hw2, hw3, hw4⟩ := hwf
  refine ⟨?_, rfl, rfl, ?_, ?_, ?_, fun _ => rfl, ?_, ?_, ?_, ?_⟩
  · simp [recordsOf, initState]
  · simp [initState, MAX_BATCH]
  · intro b hb
    simp [initState] at hb
  · intro b hb
    simp [initState] at hb
  · simp [initState, MAX_BATCH]
  · intro hd
    simp [initState] at hd
  · intro id row hfind
    left
    refine ⟨hw3 (id, row) (findRow_eq_some_mem hfind), ?_⟩
    intro c m hc
    simp [initState] at hc
  · show completedCount tbl0 = _
    rw [completedCount_eq_zero hw3]
    simp [initState]

theorem inv_step {recs : List UpdateRecord} {tbl0 : Table} {s s1 : PState} {l : Lbl}
    (hwf : WFInit recs tbl0) (hinv : Inv recs tbl0 s) (hstep : Step l s s1) :
    Inv recs tbl0 s1 := by
  obtain ⟨hw1, hw2, hw3, hw4⟩ := hwf
  obtain ⟨hcons, hufq, hkeys, hblt, hfsz, hflsz, hle, hllt, hdead, hrows, hcount⟩ := hinv
  cases hstep with
  | publish s0 r rest h =>
    refine ⟨?_, ?_, hkeys, hblt, hfsz, hflsz, hle, hllt, ?_, hrows, hcount⟩
    · simp only [recordsOf] at hcons ⊢
      rw [h] at hcons
      rw [← hcons]
      simp [List.append_assoc]
    · show s.unfinished + 1 = (s.queue ++ [r]).length
      rw [hufq]
      simp
    · intro hd
      have hd2 : s.accAlive = false := hd
      exact absurd ((hdead hd2).2.2.1) (by rw [h]; simp)
  | consume s0 r qrest halive hfl hq hlen =>
    refine ⟨?_, ?_, hkeys, ?_, hfsz, hflsz, hle, hllt, ?_, hrows, hcount⟩
    · simp only [recordsOf] at hcons ⊢
      rw [hq] at hcons
      rw [← hcons]
      simp [List.append_assoc]
    · show s.unfinished - 1 = qrest.length
      rw [hufq, hq]
      simp
    · show (s.batch ++ [r]).length < MAX_BATCH
      simp only [List.length_append, List.length_singleton]
      omega
    · intro hd
      have hd2 : s.accAlive = false := hd
      rw [halive] at hd2
      simp at hd2
  | consumeFull s0 r qrest halive hfl hq hlen =>
    refine ⟨?_, ?_, hkeys, ?_, hfsz, ?_, hle, hllt, ?_, hrows, hcount⟩
    · simp only [recordsOf] at hcons ⊢
      rw [hq, hfl] at hcons
      rw [← hcons]
      simp [List.append_assoc]
    · show s.unfinished - 1 = qrest.length
      rw [hufq, hq]
      simp
    · show List.length ([] : List UpdateRecord) < MAX_BATCH
      simp [MAX_BATCH]
    · intro b hb
      have hb2 : some (s.batch ++ [r]) = some b := hb
      have hbe : b = s.batch ++ [r] := by
        injection hb2 with hh
        exact hh.symm
      subst hbe
      constructor
      · simp only [List.length_append, List.length_singleton]
        omega
      · simp
    · intro hd
      have hd2 : s.accAlive = false := hd
      rw [halive] at hd2
      simp at hd2
  | timeout s0 halive hfl hq hbne =>
    refine ⟨?_, ?_, hkeys, ?_, hfsz, ?_, hle, hllt, ?_, hrows, hcount⟩
    · simp only [recordsOf] at hcons ⊢
      rw [hq, hfl] at hcons
      rw [← hcons]
      simp [List.append_assoc, hq]
    · exact hufq
    · show List.length ([] : List UpdateRecord) < MAX_BATCH
      simp [MAX_BATCH]
    · intro b hb
      have hb2 : some s.batch = some b := hb
      have hbe : b = s.batch := by
        injection hb2 with hh
        exact hh.symm
      subst hbe
      exact ⟨Nat.le_of_lt hblt, hbne⟩
    · intro hd
      have hd2 : s.accAlive = false := hd
      rw [halive] at hd2
      simp at hd2
  | commit s0 b halive hfl =>
    have hcons2 : s.flushed.flatten ++ (b ++ (s.batch ++ (s.queue ++
        (s.toPublish ++ s.lost)))) = recs := by
      simp only [recordsOf, hfl, Option.getD_some] at hcons
      rw [← hcons]
      simp [List.append_assoc]
    have hidseq : ((s.flushed.flatten.map UpdateRecord.task_id) ++
        ((b.map UpdateRecord.task_id) ++ ((s.batch.map UpdateRecord.task_id) ++
          ((s.queue.map UpdateRecord.task_id) ++
            ((s.toPublish.map UpdateRecord.task_id) ++
              (s.lost.map UpdateRecord.task_id)))))).Nodup := by
      have h0 := hw1
      rw [← hcons2] at h0
      simpa [List.map_append, List.append_assoc] using h0
    have h1 := List.nodup_append.1 hidseq
    have hbmNodup : (b.map UpdateRecord.task_id).Nodup :=
      (List.nodup_append.1 h1.2.1).1
    have hdisj : ∀ x, x ∈ s.flushed.flatten.map UpdateRecord.task_id →
        x ∈ b.map UpdateRecord.task_id → False := by
      intro x hxA hxB
      exact h1.2.2 hxA (List.mem_append_left _ hxB)
    have hmemrecs : ∀ r ∈ b, r ∈ recs := by
      intro r hr
      rw [← hcons2]
      exact List.mem_append_right _ (List.mem_append_left _ hr)
    have hpend : ∀ r ∈ b, findRow r.task_id s.table = some pendingRow := by
      intro r hr
      have hid : r.task_id ∈ s.table.map Prod.fst := by
        rw [hkeys]
        exact hw4 r (hmemrecs r hr)
      obtain ⟨row, hrow⟩ := findRow_isSome_of_mem_keys hid
      rcases hrows r.task_id row hrow with ⟨hp, _⟩ | ⟨c, m, hcm, hmem⟩
      · rw [hp] at hrow
        exact hrow
      · exfalso
        apply hdisj r.task_id
        · simpa using List.mem_map_of_mem UpdateRecord.task_id hmem
        · exact List.mem_map_of_mem UpdateRecord.task_id hr
    have hkeys1 : (s.table.map Prod.fst).Nodup := by
      rw [hkeys]
      exact hw2
    refine ⟨?_, hufq, ?_, hblt, ?_, ?_, hle, hllt, ?_, ?_, ?_⟩
    · simp only [recordsOf, hfl, Option.getD_some] at hcons ⊢
      rw [← hcons]
      simp [List.append_assoc, List.flatten_append]
    · show (applyBatch s.table b).map Prod.fst = _
      rw [applyBatch_keys]
      exact hkeys
    · intro bb hbb
      rcases List.mem_append.1 hbb with hbb | hbb
      · exact hfsz bb hbb
      · have : bb = b := by simpa using hbb
        subst this
        exact hflsz bb hfl
    · intro bb hbb
      cases hbb
    · intro hd
      have hd2 : s.accAlive = false := hd
      rw [halive] at hd2
      simp at hd2
    · intro id row hfind
      have hfind2 : findRow id (applyBatch s.table b) = some row := hfind
      by_cases hid : id ∈ b.map UpdateRecord.task_id
      · obtain ⟨r, hrb, hrid⟩ := List.mem_map.1 hid
        subst hrid
        rw [findRow_applyBatch_mem s.table hbmNodup hrb, hpend r hrb] at hfind2
        have h5 : some (TaskRow.mk Status.completed r.cpu_usage r.memory_usage) =
            some row := hfind2
        have hrow : row = TaskRow.mk Status.completed r.cpu_usage r.memory_usage := by
          injection h5 with hh
          exact hh.symm
        right
        refine ⟨r.cpu_usage, r.memory_usage, hrow, ?_⟩
        show UpdateRecord.mk r.task_id r.cpu_usage r.memory_usage ∈
          (s.flushed ++ [b]).flatten
        rw [List.flatten_append]
        refine List.mem_append_right _ ?_
        simpa using hrb
      · rw [findRow_applyBatch_not_mem s.table hid] at hfind2
        rcases hrows id row hfind2 with ⟨hp, hnm⟩ | ⟨c, m, hcm, hmem⟩
        · left
          refine ⟨hp, ?_⟩
          intro c m hc
          have hc2 : UpdateRecord.mk id c m ∈ s.flushed.flatten ++ [b].flatten := by
            rw [← List.flatten_append]
            exact hc
          rcases List.mem_append.1 hc2 with hc3 | hc3
          · exact hnm c m hc3
          · apply hid
            have hc4 : UpdateRecord.mk id c m ∈ b := by simpa using hc3
            exact List.mem_map_of_mem UpdateRecord.task_id hc4
        · right
          refine ⟨c, m, hcm, ?_⟩
          rw [List.flatten_append]
          exact List.mem_append_left _ hmem
    · show completedCount (applyBatch s.table b) = (s.flushed ++ [b]).flatten.length
      rw [completedCount_applyBatch s.table hkeys1 hbmNodup hpend, hcount]
      simp [List.flatten_append]
  | cancel s0 halive htp huf =>
    have hq0 : s.queue = [] := by
      have : s.queue.length = 0 := by
        rw [← hufq]
        exact huf
      exact List.length_eq_zero.1 this
    have hl0 : s.lost = [] := hle halive
    refine ⟨?_, ?_, hkeys, ?_, hfsz, ?_, ?_, ?_, ?_, hrows, hcount⟩
    · simp only [recordsOf] at hcons ⊢
      rw [hq0, htp, hl0] at hcons
      rw [← hcons]
      simp [List.append_assoc, hq0, htp, hl0]
    · exact hufq
    · show List.length ([] : List UpdateRecord) < MAX_BATCH
      simp [MAX_BATCH]
    · intro bb hbb
      cases hbb
    · intro hal
      have : s.accAlive = false → False := by
        intro hc
        rw [halive] at hc
        simp at hc
      have hal2 : False := by
        have : (false : Bool) = true := hal
        simp at this
      exact hal2.elim
    · show (s.lost ++ s.flushing.getD [] ++ s.batch).length < 2 * MAX_BATCH
      rw [hl0]
      cases hflc : s.flushing with
      | none =>
        simp only [hflc, Option.getD_none, List.nil_append, List.length_append,
          List.length_nil]
        omega
      | some fb =>
        have := (hflsz fb hflc).1
        simp only [hflc, Option.getD_some, List.nil_append, List.length_append]
        omega
    · intro _
      exact ⟨rfl, rfl, htp, hq0⟩

theorem inv_reach {recs : List UpdateRecord} {tbl0 : Table} {s : PState}
    (hwf : WFInit recs tbl0) (hr : Reach (initState recs tbl0) s) :
    Inv recs tbl0 s := by
  induction hr with
  | refl => exact inv_init hwf
  | tail h1 h2 ih =>
    obtain ⟨l, hstep⟩ := h2
    exact inv_step hwf ih hstep

theorem invNT_step {s s1 : PState} (hinv : InvNT s) (hstep : StepNT s s1) :
    InvNT s1 := by
  obtain ⟨l, hlne, hstep⟩ := hstep
  cases hstep with
  | publish s0 r rest h => exact ⟨hinv.flushedSz, hinv.flushingSz⟩
  | consume s0 r qrest halive hfl hq hlen => exact ⟨hinv.flushedSz, hinv.flushingSz⟩
  | consumeFull s0 r qrest halive hfl hq hlen =>
    refine ⟨hinv.flushedSz, ?_⟩
    intro b hb
    have hb2 : some (s.batch ++ [r]) = some b := hb
    have hbe : b = s.batch ++ [r] := by
      injection hb2 with hh
      exact hh.symm
    subst hbe
    simp only [List.length_append, List.length_singleton]
    omega
  | timeout s0 halive hfl hq hbne => exact absurd rfl hlne
  | commit s0 b halive hfl =>
    refine ⟨?_, ?_⟩
    · intro bb hbb
      rcases List.mem_append.1 hbb with hbb | hbb
      · exact hinv.flushedSz bb hbb
      · have : bb = b := by simpa using hbb
        subst this
        exact hinv.flushingSz bb hfl
    · intro bb hbb
      cases hbb
  | cancel s0 halive htp huf =>
    refine ⟨hinv.flushedSz, ?_⟩
    intro bb hbb
    cases hbb

theorem invNT_reach {recs : List UpdateRecord} {tbl0 : Table} {s : PState}
    (hr : ReachNT (initState recs tbl0) s) : InvNT s := by
  induction hr with
  | refl =>
    refine ⟨?_, ?_⟩
    · intro b hb
      simp [initState] at hb
    · intro b hb
      cases hb
  | tail h1 h2 ih => exact invNT_step ih h2

/-! ### Claim theorems -/

/-- C5 counterexample: with an unavailable measurement facility, the worker
does not substitute zeroed values and publish — `process_task` propagates
the error and produces no record at all, refuting the claimed absorption. -/
theorem C5_counterexample :
    process_task failingSampler 7 = Except.error () ∧
    process_task failingSampler 7 ≠ Except.ok (UpdateRecord.mk 7 0 0) := by
  constructor
  · rfl
  · intro h
    simp [process_task, failingSampler] at h

/-- C5 (amended): a failure of the resource-measurement facility propagates
out of `process_task` as an error — no record (zeroed or otherwise) is
produced for the task, so the task is never published nor persisted. -/
theorem C5_measurement_fault_propagates :
    ∀ task_id : Nat, process_task failingSampler task_id = Except.error () :=
  fun _ => rfl

/-- C3: flush atomicity.  A storage fault before any single update of the
batch or at the commit leaves the durable table exactly as it was (no row
of the batch partially applied); with no fault, the whole batch is applied
and the flush reports the batch length. -/
theorem C3_flush_atomicity :
    (∀ (tbl : Table) (batch : List UpdateRecord) (k : Nat), k ≤ batch.length →
      flushBatch tbl batch (some k) = Except.error tbl) ∧
    (∀ (tbl : Table) (batch : List UpdateRecord),
      flushBatch tbl batch none = Except.ok (applyBatch tbl batch, batch.length)) := by
  constructor
  · intro tbl batch k hk
    show flushGo (beginTx (Conn.mk tbl none)) batch (some k) batch.length = _
    rw [flushGo_fault batch _ k batch.length hk]
    rfl
  · intro tbl batch
    show flushGo (beginTx (Conn.mk tbl none)) batch none batch.length = _
    show flushGo (Conn.mk tbl (some tbl)) batch none batch.length = _
    rw [flushGo_ok]

/-- C3 witness: a fault before the second update of a two-record batch over
the two seeded rows leaves the table untouched; the fault-free flush
commits both updates and reports 2. -/
theorem C3_flush_atomicity_witness :
    (1 ≤ ([UpdateRecord.mk 1 5 6, UpdateRecord.mk 2 7 8] : List UpdateRecord).length ∧
      flushBatch (seedTasks 2) [UpdateRecord.mk 1 5 6, UpdateRecord.mk 2 7 8] (some 1) =
        Except.error (seedTasks 2)) ∧
    flushBatch (seedTasks 2) [UpdateRecord.mk 1 5 6, UpdateRecord.mk 2 7 8] none =
      Except.ok (applyBatch (seedTasks 2) [UpdateRecord.mk 1 5 6, UpdateRecord.mk 2 7 8], 2) :=
  ⟨⟨by decide, C3_flush_atomicity.1 (seedTasks 2) _ 1 (by decide)⟩,
    C3_flush_atomicity.2 (seedTasks 2) _⟩

/-- C10: a record whose `task_id` matches no row, at any position of the
batch, makes the flush update zero rows for it without raising any error:
applying the batch has the same effect as applying the batch with the
unmatched record removed (every other record, before and after it, is
applied normally), the transaction still commits, and the reported count
still includes the unmatched record. -/
theorem C10_unmatched_id_noop :
    ∀ (tbl : Table) (pre post : List UpdateRecord) (r : UpdateRecord),
      r.task_id ∉ tbl.map Prod.fst →
      applyBatch tbl (pre ++ r :: post) = applyBatch tbl (pre ++ post) ∧
      flushBatch tbl (pre ++ r :: post) none =
        Except.ok (applyBatch tbl (pre ++ post),
          pre.length + post.length + 1) := by
  intro tbl pre post r h
  have hkeys : r.task_id ∉ (applyBatch tbl pre).map Prod.fst := by
    rw [applyBatch_keys]
    exact h
  have hskip : applyBatch tbl (pre ++ r :: post) = applyBatch tbl (pre ++ post) := by
    rw [applyBatch_append, applyBatch_append]
    show applyBatch (applyUpdate (applyBatch tbl pre) r) post = _
    rw [applyUpdate_not_mem_keys hkeys]
  refine ⟨hskip, ?_⟩
  have hlen : (pre ++ r :: post).length = pre.length + post.length + 1 := by
    simp only [List.length_append, List.length_cons]
    omega
  show flushGo (beginTx (Conn.mk tbl none)) (pre ++ r :: post) none
    (pre ++ r :: post).length = _
  show flushGo (Conn.mk tbl (some tbl)) (pre ++ r :: post) none
    (pre ++ r :: post).length = _
  rw [flushGo_ok, hskip, hlen]

/-- C10 witness: flushing `[(1, _, _), (7, _, _), (2, _, _)]` against the two
seeded rows: the middle record's id 7 matches nothing, the flush succeeds,
rows 1 and 2 are updated exactly as if the unmatched record were absent,
and the count is 3. -/
theorem C10_unmatched_id_noop_witness :
    ((7 : Nat) ∉ (seedTasks 2).map Prod.fst) ∧
    (applyBatch (seedTasks 2)
        ([UpdateRecord.mk 1 2 3] ++ UpdateRecord.mk 7 9 9 :: [UpdateRecord.mk 2 4 5]) =
      applyBatch (seedTasks 2) ([UpdateRecord.mk 1 2 3] ++ [UpdateRecord.mk 2 4 5]) ∧
      flushBatch (seedTasks 2)
        ([UpdateRecord.mk 1 2 3] ++ UpdateRecord.mk 7 9 9 :: [UpdateRecord.mk 2 4 5]) none =
        Except.ok (applyBatch (seedTasks 2) ([UpdateRecord.mk 1 2 3] ++ [UpdateRecord.mk 2 4 5]),
          [UpdateRecord.mk 1 2 3].length + [UpdateRecord.mk 2 4 5].length + 1)) :=
  ⟨by decide,
    C10_unmatched_id_noop (seedTasks 2) [UpdateRecord.mk 1 2 3]
      [UpdateRecord.mk 2 4 5] (UpdateRecord.mk 7 9 9) (by decide)⟩

/-- C2 counterexample: a storage fault on the first flush does not return the
loop to accumulating — the loop dies: the later batch (the record with id 2)
is never flushed, nothing is committed, and the loop is aborted, refuting
the claimed resilience. -/
theorem C2_counterexample :
    (runLoop (seedTasks 2) [true]
      [GetResult.item (UpdateRecord.mk 1 4 4), GetResult.timeout,
        GetResult.item (UpdateRecord.mk 2 4 4), GetResult.timeout]).aborted = true ∧
    (runLoop (seedTasks 2) [true]
      [GetResult.item (UpdateRecord.mk 1 4 4), GetResult.timeout,
        GetResult.item (UpdateRecord.mk 2 4 4), GetResult.timeout]).committed = [] ∧
    (runLoop (seedTasks 2) [true]
      [GetResult.item (UpdateRecord.mk 1 4 4), GetResult.timeout,
        GetResult.item (UpdateRecord.mk 2 4 4), GetResult.timeout]).table = seedTasks 2 :=
  ⟨rfl, rfl, rfl⟩

/-- C2 (amended): `async_update_batch` has no handler around the flush, so a
storage fault during a flush fatally aborts the accumulator loop: the
faulted batch is rolled back (durable table unchanged), nothing before it
was committed when the first flush faults, and once aborted the loop
processes no further events, so no subsequent batch is ever flushed. -/
theorem C2_flush_fault_aborts_loop :
    (∀ (s : LoopSt) (evs : List GetResult), s.aborted = true →
      evs.foldl loopStep s = s) ∧
    (∀ (tbl : Table) (fs : List Bool) (evs : List GetResult),
      (runLoop tbl (true :: fs) evs).aborted = true →
      (runLoop tbl (true :: fs) evs).committed = [] ∧
      (runLoop tbl (true :: fs) evs).table = tbl) := by
  constructor
  · intro s evs h
    exact loop_frozen evs s h
  · intro tbl fs evs hab
    exact loop_first_fault evs _ fs rfl rfl hab

/-- C2 witness: the frozen-loop clause at a concrete dead state, and the
fault clause at a concrete one-batch run whose single flush faults. -/
theorem C2_flush_fault_aborts_loop_witness :
    ([GetResult.timeout].foldl loopStep (LoopSt.mk [] [] [] (seedTasks 1) true) =
      LoopSt.mk [] [] [] (seedTasks 1) true) ∧
    ((runLoop (seedTasks 2) [true]
        [GetResult.item (UpdateRecord.mk 1 4 4), GetResult.timeout]).aborted = true ∧
      ((runLoop (seedTasks 2) [true]
          [GetResult.item (UpdateRecord.mk 1 4 4), GetResult.timeout]).committed = [] ∧
        (runLoop (seedTasks 2) [true]
          [GetResult.item (UpdateRecord.mk 1 4 4), GetResult.timeout]).table =
          seedTasks 2)) :=
  ⟨C2_flush_fault_aborts_loop.1 (LoopSt.mk [] [] [] (seedTasks 1) true)
      [GetResult.timeout] rfl,
    rfl,
    C2_flush_fault_aborts_loop.2 (seedTasks 2) []
      [GetResult.item (UpdateRecord.mk 1 4 4), GetResult.timeout] rfl⟩

/-- C9: idle-timeout cutoff.  Three records followed by a stall produce
exactly one flush, at 5 units after the last arrival, containing exactly
those three records; in general a receive timeout with a non-empty batch
flushes exactly the accumulated batch, while a timeout with an empty batch
merely restarts the wait and flushes nothing. -/
theorem C9_idle_timeout_cutoff :
    (sim 0 [] [(0, UpdateRecord.mk 1 3 4), (1, UpdateRecord.mk 2 3 4),
        (2, UpdateRecord.mk 3 3 4)] =
      [(7, [UpdateRecord.mk 1 3 4, UpdateRecord.mk 2 3 4, UpdateRecord.mk 3 3 4])]) ∧
    (∀ (t : Nat) (batch : List UpdateRecord), batch ≠ [] →
      sim t batch [] = [(t + T_idle, batch)]) ∧
    (∀ (t t1 : Nat) (r : UpdateRecord) (rest : List (Nat × UpdateRecord))
      (batch : List UpdateRecord), t + T_idle < t1 → batch ≠ [] →
      sim t batch ((t1, r) :: rest) =
        (t + T_idle, batch) :: sim (t + T_idle) [] ((t1, r) :: rest)) ∧
    (∀ (t t1 : Nat) (r : UpdateRecord) (rest : List (Nat × UpdateRecord)),
      t + T_idle < t1 →
      sim t [] ((t1, r) :: rest) = sim (t + T_idle) [] ((t1, r) :: rest)) := by
  refine ⟨?_, ?_, ?_, ?_⟩
  · simp [sim, T_idle, MAX_BATCH]
  · intro t batch hb
    rw [sim.eq_1, if_neg (by simp [List.isEmpty_iff]; exact hb)]
  · intro t t1 r rest batch hgt hb
    rw [sim.eq_2, if_neg (by omega), if_neg (by simp [List.isEmpty_iff]; exact hb)]
  · intro t t1 r rest hgt
    rw [sim.eq_2, if_neg (by omega), if_pos (by rfl)]

/-- C9 witness: each timeout clause at concrete inputs. -/
theorem C9_idle_timeout_cutoff_witness :
    (([UpdateRecord.mk 1 1 1] : List UpdateRecord) ≠ []) ∧
    sim 3 [UpdateRecord.mk 1 1 1] [] = [(3 + T_idle, [UpdateRecord.mk 1 1 1])] ∧
    (3 + T_idle < 20) ∧
    sim 3 [UpdateRecord.mk 1 1 1] [(20, UpdateRecord.mk 2 1 1)] =
      (3 + T_idle, [UpdateRecord.mk 1 1 1]) ::
        sim (3 + T_idle) [] [(20, UpdateRecord.mk 2 1 1)] ∧
    sim 3 [] [(20, UpdateRecord.mk 2 1 1)] =
      sim (3 + T_idle) [] [(20, UpdateRecord.mk 2 1 1)] :=
  ⟨by simp, C9_idle_timeout_cutoff.2.1 3 _ (by simp), by decide,
    C9_idle_timeout_cutoff.2.2.1 3 20 _ _ _ (by decide) (by simp),
    C9_idle_timeout_cutoff.2.2.2 3 20 _ _ (by decide)⟩

/-- C7: batch cutoff bounds.  Over any chronologically ordered arrival
trace, every flush of the accumulator contains at most `MAX_BATCH` records
(and is non-empty), every arrived record ends up flushed (so in particular
the batch holding the last record is flushed), and every flush — including
that final one — is triggered no later than `T_idle` after the latest
arrival time. -/
theorem C7_batch_cutoff_bounds :
    ∀ arr : List (Nat × UpdateRecord),
      (arr.map Prod.fst).Pairwise (fun a b => a ≤ b) →
      ((∀ f ∈ sim 0 [] arr, f.2.length ≤ MAX_BATCH ∧ f.2 ≠ []) ∧
        ((sim 0 [] arr).map Prod.snd).flatten = arr.map Prod.snd ∧
        (∀ f ∈ sim 0 [] arr, f.1 ≤ (arr.map Prod.fst).foldl max 0 + T_idle)) := by
  intro arr hpw
  refine ⟨?_, ?_, ?_⟩
  · exact sim_batches 0 [] arr (by simp [MAX_BATCH])
  · exact sim_flatten 0 [] arr
  · exact sim_times 0 [] arr hpw (fun a _ => Nat.zero_le _)

/-- C7 witness: the bounds at a concrete two-arrival sorted trace. -/
theorem C7_batch_cutoff_bounds_witness :
    (([(0, UpdateRecord.mk 1 1 1), (2, UpdateRecord.mk 2 1 1)].map
        Prod.fst).Pairwise (fun a b => a ≤ b)) ∧
    ((∀ f ∈ sim 0 [] [(0, UpdateRecord.mk 1 1 1), (2, UpdateRecord.mk 2 1 1)],
        f.2.length ≤ MAX_BATCH ∧ f.2 ≠ []) ∧
      ((sim 0 [] [(0, UpdateRecord.mk 1 1 1),
          (2, UpdateRecord.mk 2 1 1)]).map Prod.snd).flatten =
        [(0, UpdateRecord.mk 1 1 1), (2, UpdateRecord.mk 2 1 1)].map Prod.snd ∧
      (∀ f ∈ sim 0 [] [(0, UpdateRecord.mk 1 1 1), (2, UpdateRecord.mk 2 1 1)],
        f.1 ≤ ([(0, UpdateRecord.mk 1 1 1),
          (2, UpdateRecord.mk 2 1 1)].map Prod.fst).foldl max 0 + T_idle)) :=
  ⟨by decide, C7_batch_cutoff_bounds _ (by decide)⟩

/-- C6 counterexample: `update_queue` is constructed with no `maxsize`, so
no fixed bound on the buffered records exists: for any claimed bound, a run
with more producers than the bound in which the accumulator never runs
buffers more records than the bound. -/
theorem C6_counterexample : ¬ ChannelBounded := by
  intro h
  obtain ⟨B, hB⟩ := h
  have h1 := reach_publishAll (List.replicate (B + 1) (UpdateRecord.mk 1 0 0))
    (initState (List.replicate (B + 1) (UpdateRecord.mk 1 0 0)) []) rfl
  have h2 := hB (List.replicate (B + 1) (UpdateRecord.mk 1 0 0)) [] _
    (reachNT_reach h1)
  simp [initState] at h2

/-- C6 (amended): the channel is unbounded — a put never suspends, so with a
stalled accumulator every producer can publish immediately and the channel
buffers as many records as there are producers. -/
theorem C6_unbounded_channel :
    ∀ (recs : List UpdateRecord) (tbl : Table), ∃ s : PState,
      Reach (initState recs tbl) s ∧ s.queue.length = recs.length := by
  intro recs tbl
  refine ⟨_, reachNT_reach (reach_publishAll recs (initState recs tbl) rfl), ?_⟩
  simp [initState]

/-- C1 counterexample: three published records, all received by the
accumulator (the channel is drained, so `update_queue.join()` returns), and
the orchestrator then cancels the accumulator: the run ends with the
accumulator dead, nothing ever flushed, and the published record of task 1
contained in no flushed batch — a clean shutdown that loses records,
refuting the claimed drain correctness. -/
theorem C1_counterexample : ∃ s : PState,
    Reach (initState [UpdateRecord.mk 1 8 9, UpdateRecord.mk 2 8 9,
      UpdateRecord.mk 3 8 9] (seedTasks 3)) s ∧
    s.accAlive = false ∧ s.toPublish = [] ∧ s.queue = [] ∧
    s.flushed = [] ∧ UpdateRecord.mk 1 8 9 ∉ s.flushed.flatten := by
  have h1 := reach_publishAll
    [UpdateRecord.mk 1 8 9, UpdateRecord.mk 2 8 9, UpdateRecord.mk 3 8 9]
    (initState [UpdateRecord.mk 1 8 9, UpdateRecord.mk 2 8 9,
      UpdateRecord.mk 3 8 9] (seedTasks 3)) rfl
  have h2 := reach_consumeSome
    [UpdateRecord.mk 1 8 9, UpdateRecord.mk 2 8 9, UpdateRecord.mk 3 8 9]
    { initState [UpdateRecord.mk 1 8 9, UpdateRecord.mk 2 8 9,
        UpdateRecord.mk 3 8 9] (seedTasks 3) with
      toPublish := [],
      queue := (initState [UpdateRecord.mk 1 8 9, UpdateRecord.mk 2 8 9,
        UpdateRecord.mk 3 8 9] (seedTasks 3)).queue ++
        [UpdateRecord.mk 1 8 9, UpdateRecord.mk 2 8 9, UpdateRecord.mk 3 8 9],
      unfinished := (initState [UpdateRecord.mk 1 8 9, UpdateRecord.mk 2 8 9,
        UpdateRecord.mk 3 8 9] (seedTasks 3)).unfinished + 3 } []
    rfl rfl rfl (by decide)
  refine ⟨_, Relation.ReflTransGen.trans (reachNT_reach h1)
    (Relation.ReflTransGen.trans (reachNT_reach h2)
      (Relation.ReflTransGen.single ⟨Lbl.cancel, Step.cancel _ rfl rfl rfl⟩)),
    rfl, rfl, rfl, rfl, by simp [initState]⟩

/-- C1 (amended): on a clean shutdown the join-then-cancel protocol only
guarantees that every published record was received from the channel: in
every run that ends with the accumulator cancelled, the channel and the
workers are indeed drained, but the published records split into the
committed flushes plus the records lost with the cancelled accumulator
(its in-memory batch and any in-flight uncommitted flush) — the final
partial batch is not flushed before termination. -/
theorem C1_drain_loses_unflushed :
    ∀ (recs : List UpdateRecord) (tbl : Table) (s : PState),
      WFInit recs tbl → Reach (initState recs tbl) s → s.accAlive = false →
      s.toPublish = [] ∧ s.queue = [] ∧ s.flushed.flatten ++ s.lost = recs := by
  intro recs tbl s hwf hr hdead
  have hinv := inv_reach hwf hr
  have hd := hinv.dead hdead
  refine ⟨hd.2.2.1, hd.2.2.2, ?_⟩
  have hc := hinv.conserve
  simp only [recordsOf, hd.1, hd.2.1, hd.2.2.1, hd.2.2.2] at hc
  simpa [List.append_assoc] using hc

/-- C1 witness: the zero-record run — the orchestrator cancels the
accumulator immediately; nothing was published and nothing is lost. -/
theorem C1_drain_loses_unflushed_witness :
    WFInit [] [] ∧
    ((PState.mk [] [] 0 [] none [] [] false []).toPublish = [] ∧
      (PState.mk [] [] 0 [] none [] [] false []).queue = [] ∧
      (PState.mk [] [] 0 [] none [] [] false []).flushed.flatten ++
        (PState.mk [] [] 0 [] none [] [] false []).lost = []) :=
  ⟨⟨List.nodup_nil, List.nodup_nil, fun p hp => absurd hp (List.not_mem_nil p),
      fun r hr => absurd hr (List.not_mem_nil r)⟩,
    C1_drain_loses_unflushed [] [] _
      ⟨List.nodup_nil, List.nodup_nil, fun p hp => absurd hp (List.not_mem_nil p),
        fun r hr => absurd hr (List.not_mem_nil r)⟩
      (Relation.ReflTransGen.single
        ⟨Lbl.cancel, Step.cancel (initState [] []) rfl rfl rfl⟩) rfl⟩

theorem mem_keys_of_findRow {id : Nat} {row : TaskRow} {tbl : Table}
    (h : findRow id tbl = some row) : id ∈ tbl.map Prod.fst :=
  List.mem_map.2 ⟨(id, row), findRow_eq_some_mem h, rfl⟩

theorem mem_unique_of_nodup_ids : ∀ {l : List UpdateRecord},
    (l.map UpdateRecord.task_id).Nodup → ∀ {r1 r2 : UpdateRecord},
    r1 ∈ l → r2 ∈ l → r1.task_id = r2.task_id → r1 = r2 := by
  intro l
  induction l with
  | nil =>
    intro _ r1 r2 h1
    simp at h1
  | cons x t ih =>
    intro hnd r1 r2 h1 h2 he
    simp only [List.map_cons, List.nodup_cons] at hnd
    rcases List.mem_cons.1 h1 with hx1 | ht1
    · rcases List.mem_cons.1 h2 with hx2 | ht2
      · rw [hx1, hx2]
      · exfalso
        apply hnd.1
        have hm : r2.task_id ∈ t.map UpdateRecord.task_id :=
          List.mem_map_of_mem _ ht2
        rw [hx1] at he
        rw [← he] at hm
        exact hm
    · rcases List.mem_cons.1 h2 with hx2 | ht2
      · exfalso
        apply hnd.1
        have hm : r1.task_id ∈ t.map UpdateRecord.task_id :=
          List.mem_map_of_mem _ ht1
        rw [hx2] at he
        rw [he] at hm
        exact hm
      · exact ih hnd.2 ht1 ht2 he

theorem flushed_ids_nodup {recs : List UpdateRecord} {s : PState}
    (hw1 : (recs.map UpdateRecord.task_id).Nodup) (hcons : recordsOf s = recs) :
    (s.flushed.flatten.map UpdateRecord.task_id).Nodup := by
  have h0 := hw1
  rw [← hcons] at h0
  simp only [recordsOf, List.map_append] at h0
  have h1 := (List.nodup_append.1 h0).1
  have h2 := (List.nodup_append.1 h1).1
  have h3 := (List.nodup_append.1 h2).1
  have h4 := (List.nodup_append.1 h3).1
  exact (List.nodup_append.1 h4).1

/-- C4: task lifecycle invariant.  In every reachable state of a
well-formed run, every row of the table is either the pristine seeded row
`('pending', 0, 0)` or `('completed', c, m)` where `(id, c, m)` is exactly
the record published for this task — the status flip and the two usage
fields are written together, so no row is ever `completed` with the seeded
zero defaults nor `pending` with usage fields set; moreover a `completed`
row is never modified by any further step, so the transition happens at
most once. -/
theorem C4_lifecycle_invariant :
    ∀ (recs : List UpdateRecord) (tbl0 : Table) (s s1 : PState) (l : Lbl),
      WFInit recs tbl0 → Reach (initState recs tbl0) s →
      ((∀ id row, findRow id s.table = some row →
          row = pendingRow ∨ ∃ c m, row = TaskRow.mk Status.completed c m ∧
            UpdateRecord.mk id c m ∈ recs) ∧
        (Step l s s1 → ∀ id c m,
          findRow id s.table = some (TaskRow.mk Status.completed c m) →
          findRow id s1.table = some (TaskRow.mk Status.completed c m))) := by
  intro recs tbl0 s s1 l hwf hr
  have hinv := inv_reach hwf hr
  constructor
  · intro id row hf
    rcases hinv.rows id row hf with ⟨hp, _⟩ | ⟨c, m, hcm, hmem⟩
    · exact Or.inl hp
    · right
      refine ⟨c, m, hcm, ?_⟩
      rw [← hinv.conserve]
      simp only [recordsOf]
      exact List.mem_append_left _ (List.mem_append_left _ (List.mem_append_left _
        (List.mem_append_left _ (List.mem_append_left _ hmem))))
  · intro hstep id c m hf
    have hinv1 := inv_step hwf hinv hstep
    rcases hinv.rows id _ hf with ⟨hp, _⟩ | ⟨c2, m2, hcm, hmem⟩
    · exact absurd hp (by simp [pendingRow])
    · have hc2 : c2 = c ∧ m2 = m := by
        injection hcm with hst hcu hmu
        exact ⟨hcu.symm, hmu.symm⟩
      have hmem2 : UpdateRecord.mk id c m ∈ s.flushed.flatten := by
        rw [← hc2.1, ← hc2.2]
        exact hmem
      have hmono : UpdateRecord.mk id c m ∈ s1.flushed.flatten := by
        cases hstep with
        | publish s0 r rest h => exact hmem2
        | consume s0 r qrest h1 h2 h3 h4 => exact hmem2
        | consumeFull s0 r qrest h1 h2 h3 h4 => exact hmem2
        | timeout s0 h1 h2 h3 h4 => exact hmem2
        | commit s0 b h1 h2 =>
          show UpdateRecord.mk id c m ∈ (s.flushed ++ [b]).flatten
          rw [List.flatten_append]
          exact List.mem_append_left _ hmem2
        | cancel s0 h1 h2 h3 => exact hmem2
      have hkeys1 : id ∈ s1.table.map Prod.fst := by
        rw [hinv1.keys, ← hinv.keys]
        exact mem_keys_of_findRow hf
      obtain ⟨row1, hrow1⟩ := findRow_isSome_of_mem_keys hkeys1
      rcases hinv1.rows id row1 hrow1 with ⟨_, hnm1⟩ | ⟨c3, m3, hcm3, hmem3⟩
      · exact absurd hmono (hnm1 c m)
      · have hnd := flushed_ids_nodup hwf.1 hinv1.conserve
        have hequ := mem_unique_of_nodup_ids hnd hmem3 hmono rfl
        have h33 : c3 = c ∧ m3 = m := by
          injection hequ with hidq hcq hmq
          exact ⟨hcq, hmq⟩
        obtain ⟨h3c, h3m⟩ := h33
        rw [hrow1, hcm3, h3c, h3m]

/-- C4 witness: the instantiated invariant at the freshly seeded one-task
run. -/
theorem C4_lifecycle_invariant_witness :
    WFInit [UpdateRecord.mk 1 2 3] (seedTasks 1) ∧
    ((∀ id row, findRow id
        (initState [UpdateRecord.mk 1 2 3] (seedTasks 1)).table = some row →
        row = pendingRow ∨ ∃ c m, row = TaskRow.mk Status.completed c m ∧
          UpdateRecord.mk id c m ∈ [UpdateRecord.mk 1 2 3]) ∧
      (Step Lbl.cancel (initState [UpdateRecord.mk 1 2 3] (seedTasks 1))
          (initState [UpdateRecord.mk 1 2 3] (seedTasks 1)) → ∀ id c m,
        findRow id (initState [UpdateRecord.mk 1 2 3] (seedTasks 1)).table =
          some (TaskRow.mk Status.completed c m) →
        findRow id (initState [UpdateRecord.mk 1 2 3] (seedTasks 1)).table =
          some (TaskRow.mk Status.completed c m))) :=
  ⟨⟨by decide, by decide, by decide, by decide⟩,
    C4_lifecycle_invariant [UpdateRecord.mk 1 2 3] (seedTasks 1)
      (initState [UpdateRecord.mk 1 2 3] (seedTasks 1))
      (initState [UpdateRecord.mk 1 2 3] (seedTasks 1)) Lbl.cancel
      ⟨by decide, by decide, by decide, by decide⟩
      Relation.ReflTransGen.refl⟩

theorem recs1000_ids :
    recs1000.map UpdateRecord.task_id = (List.range 1000).map (fun i => i + 1) := by
  simp [recs1000, List.map_map]

theorem seedTasks_keys (n : Nat) :
    (seedTasks n).map Prod.fst = (List.range n).map (fun i => i + 1) := by
  simp [seedTasks, List.map_map]

theorem recs1000_length : recs1000.length = 1000 := by
  simp [recs1000]

theorem wf1000 : WFInit recs1000 (seedTasks 1000) := by
  refine ⟨?_, ?_, ?_, ?_⟩
  · rw [recs1000_ids]
    exact List.Nodup.map (fun a b h => by omega) (List.nodup_range 1000)
  · rw [seedTasks_keys]
    exact List.Nodup.map (fun a b h => by omega) (List.nodup_range 1000)
  · intro p hp
    simp only [seedTasks, List.mem_map] at hp
    obtain ⟨i, _, hpe⟩ := hp
    rw [← hpe]
  · intro r hr
    simp only [recs1000, List.mem_map] at hr
    obtain ⟨i, hi, hre⟩ := hr
    rw [seedTasks_keys]
    simp only [List.mem_map]
    exact ⟨i, hi, by rw [← hre]⟩

theorem reach_nominal_nine : ∃ s : PState, ReachNT init1000 s ∧
    s.accAlive = false ∧ s.flushed.length = 9 ∧ completedCount s.table = 900 := by
  have h1 := reach_publishAll recs1000 init1000 rfl
  obtain ⟨fl, hfln, hflf, h2r⟩ := reach_flushRounds 9 (recs1000.take 900)
    { init1000 with
      toPublish := [], queue := init1000.queue ++ recs1000,
      unfinished := init1000.unfinished + recs1000.length }
    (recs1000.drop 900) rfl rfl rfl
    (List.take_append_drop 900 recs1000).symm
    (by rw [List.length_take, recs1000_length]; decide)
  have h3 := reach_consumeChunk (recs1000.drop 900)
    { init1000 with
      toPublish := [],
      queue := recs1000.drop 900,
      unfinished := (init1000.unfinished + recs1000.length) -
        (recs1000.take 900).length,
      flushed := init1000.flushed ++ fl,
      table := applyBatch init1000.table (recs1000.take 900) } []
    rfl rfl (List.append_nil _).symm
    (List.length_pos.1 (by rw [List.length_drop, recs1000_length]; decide))
    (by simp [init1000, initState, List.length_drop, recs1000_length, MAX_BATCH])
  have hall := Relation.ReflTransGen.trans h1 (Relation.ReflTransGen.trans h2r
    (Relation.ReflTransGen.trans h3 (Relation.ReflTransGen.single
      (⟨Lbl.cancel, by simp, Step.cancel _ rfl rfl
        (by simp [init1000, initState, List.length_take, List.length_drop,
          recs1000_length])⟩ : StepNT _ _))))
  have hinv := inv_reach wf1000 (reachNT_reach hall)
  refine ⟨_, hall, rfl, ?_, ?_⟩
  · simpa [init1000, initState] using hfln
  · rw [hinv.count]
    show ((init1000.flushed ++ fl).flatten).length = 900
    simp only [init1000, initState, List.nil_append]
    rw [hflf, List.length_take, recs1000_length]
    omega

/-- C8 counterexample: the nominal 1000-task, no-fault run does not always
end with 10 flushes of 100 and 1000 completed rows — a run exists (the one
in which the cancellation lands during the tenth flush transaction, which
is what the join-then-cancel protocol of `main` produces, since
`task_done()` is called on receipt, before the flush commits) that ends
with only 9 committed flushes and 900 completed rows. -/
theorem C8_counterexample : ∃ s : PState, ReachNT init1000 s ∧
    s.accAlive = false ∧ s.flushed.length ≠ 10 ∧
    completedCount s.table ≠ 1000 := by
  obtain ⟨s, hr, hd, h9, h900⟩ := reach_nominal_nine
  exact ⟨s, hr, hd, by omega, by omega⟩

/-- C8 (amended): every timeout-free run of the nominal 1000-task pipeline
that ends with the accumulator cancelled has committed either 9 or 10 flush
transactions, each of exactly `MAX_BATCH = 100` records, with exactly
`100 × (number of flushes)` rows completed (900 or 1000) — the tenth flush
races the cancellation, so the last 100 records may be lost; the channel
and workers are always fully drained. -/
theorem C8_nominal_run :
    ∀ s : PState, ReachNT init1000 s → s.accAlive = false →
      (s.flushed.length = 9 ∨ s.flushed.length = 10) ∧
      (∀ b ∈ s.flushed, b.length = MAX_BATCH) ∧
      completedCount s.table = MAX_BATCH * s.flushed.length ∧
      s.queue = [] ∧ s.toPublish = [] := by
  intro s hr hdead
  have hinv := inv_reach wf1000 (reachNT_reach hr)
  have hnt := invNT_reach hr
  have hd := hinv.dead hdead
  have hcons := hinv.conserve
  simp only [recordsOf, hd.1, hd.2.1, hd.2.2.1, hd.2.2.2] at hcons
  have hlen : s.flushed.flatten.length + s.lost.length = 1000 := by
    have hc2 := congrArg List.length hcons
    simpa [recs1000_length] using hc2
  have hflat : s.flushed.flatten.length = MAX_BATCH * s.flushed.length :=
    flatten_length_of_sizes hnt.flushedSz
  have hlost := hinv.lostLt
  have hk : s.flushed.length = 9 ∨ s.flushed.length = 10 := by
    rw [hflat] at hlen
    simp only [MAX_BATCH] at hlen hlost
    omega
  refine ⟨hk, hnt.flushedSz, ?_, hd.2.2.2, hd.2.2.1⟩
  rw [hinv.count, hflat]

/-- C8 witness: the amended conclusion holds at the concrete cancelled run
with nine committed flushes. -/
theorem C8_nominal_run_witness : ∃ s : PState, ReachNT init1000 s ∧
    s.accAlive = false ∧
    ((s.flushed.length = 9 ∨ s.flushed.length = 10) ∧
      (∀ b ∈ s.flushed, b.length = MAX_BATCH) ∧
      completedCount s.table = MAX_BATCH * s.flushed.length ∧
      s.queue = [] ∧ s.toPublish = []) := by
  obtain ⟨s, hr, hd, h9, h900⟩ := reach_nominal_nine
  exact ⟨s, hr, hd, C8_nominal_run s hr hd⟩

end Q4
